import Mathlib

/-!
Verification of the company-analysis dashboard's core logic (prompt
templating, response normalization, batch orchestration, configuration
parsing and saving).  Python strings are modelled as `List Char`; the
OpenAI completion endpoint and the stdlib JSON decoder are external
collaborators and are therefore parameters of the embedding.
-/

set_option maxHeartbeats 1000000

/-- Python strings, modelled as lists of characters. -/
abbrev Str := List Char

/-- Conversion from a Lean string literal. -/
def strOf (s : String) : Str := s.data

/-- The brace characters, written via their code points. -/
def lbrace : Char := Char.ofNat 123

def rbrace : Char := Char.ofNat 125

def dquote : Char := Char.ofNat 34

def squote : Char := Char.ofNat 39

/-- The characters of `company_name`, the placeholder key. -/
def cnKey : Str := strOf "company_name"

/-- The single-brace placeholder token appearing in prompt templates. -/
def plc : Str := lbrace :: cnKey ++ [rbrace]

/-- The doubled-brace form of the placeholder, produced by brace escaping. -/
def plc2 : Str := lbrace :: lbrace :: cnKey ++ [rbrace, rbrace]

/-- Tail of the placeholder after its opening brace. -/
def cnClose : Str := cnKey ++ [rbrace]

/-- The two-character comment marker of the prompt cleaner. -/
def dslash : Str := ['/', '/']

/-- Index of the first occurrence of `p` in `s` (Python `str.find`,
with absence reported as `none` instead of `-1`). -/
def pyFind (p : Str) : Str → Option Nat
  | [] => if p.isPrefixOf ([] : Str) then some 0 else none
  | c :: rest =>
    if p.isPrefixOf (c :: rest) then some 0
    else (pyFind p rest).map (· + 1)

/-- Python's `p in s` substring test. -/
def containsSub (p s : Str) : Bool := (pyFind p s).isSome

/-- Python `str.isspace` on the ASCII whitespace characters relevant here. -/
def pyWS (c : Char) : Bool :=
  c == ' ' || c == '\t' || c == '\n' || c == '\r' || c == Char.ofNat 11 || c == Char.ofNat 12

/-- Python `str.rstrip()`. -/
def pyRstrip (s : Str) : Str := (s.reverse.dropWhile pyWS).reverse

/-- Python `str.lstrip()`. -/
def pyLstrip (s : Str) : Str := s.dropWhile pyWS

/-- Python `str.strip()`. -/
def pyStrip (s : Str) : Str := pyRstrip (pyLstrip s)

/-- Python `str.strip(chars)`: remove every leading and trailing character
belonging to `cs` (all of them, not one layer). -/
def pyStripChars (cs : List Char) (s : Str) : Str :=
  ((s.dropWhile (fun c => cs.contains c)).reverse.dropWhile (fun c => cs.contains c)).reverse

/-- Python `str.split('\n')` (an empty string yields one empty piece). -/
def splitNL : Str → List Str
  | [] => [[]]
  | c :: rest =>
    if c = '\n' then [] :: splitNL rest
    else
      match splitNL rest with
      | [] => [[c]]
      | l :: ls => (c :: l) :: ls

/-- Python `'\n'.join`. -/
def joinNL : List Str → Str
  | [] => []
  | [l] => l
  | l :: ls => l ++ '\n' :: joinNL ls

/-- Fueled worker for `replaceAll`; the fuel is only a termination
device and never runs out when started at the string's length. -/
def replaceAllGo (p r : Str) : Nat → Str → Str
  | _, [] => []
  | 0, s => s
  | fuel + 1, c :: rest =>
    if p.isPrefixOf (c :: rest) ∧ p ≠ [] then
      r ++ replaceAllGo p r fuel (rest.drop (p.length - 1))
    else c :: replaceAllGo p r fuel rest

/-- Python `str.replace(p, r)` for a nonempty pattern `p`: replace every
non-overlapping occurrence, scanning left to right.  (Every use in this
development instantiates `p` with a nonempty pattern, so the `p ≠ []`
guard never changes the result.) -/
def replaceAll (p r s : Str) : Str := replaceAllGo p r s.length s

/-- One-pass view of the two single-character replaces on line 38 of
`utils.py`: every literal brace is doubled. -/
def escBraces : Str → Str
  | [] => []
  | c :: rest =>
    if c = lbrace then lbrace :: lbrace :: escBraces rest
    else if c = rbrace then rbrace :: rbrace :: escBraces rest
    else c :: escBraces rest

/-- Fueled worker for `escKeepPlc`. -/
def escKeepPlcGo : Nat → Str → Str
  | _, [] => []
  | 0, s => s
  | fuel + 1, c :: rest =>
    if c = lbrace ∧ cnClose.isPrefixOf rest then plc ++ escKeepPlcGo fuel (rest.drop 13)
    else if c = lbrace then lbrace :: lbrace :: escKeepPlcGo fuel rest
    else if c = rbrace then rbrace :: rbrace :: escKeepPlcGo fuel rest
    else c :: escKeepPlcGo fuel rest

/-- One-pass view of the full brace step (doubling followed by restoring
the doubled placeholder): occurrences of the placeholder are kept
single-braced, every other brace is doubled. -/
def escKeepPlc (s : Str) : Str := escKeepPlcGo s.length s

/-- Characters Python's format parser accepts inside the replacement
fields used here (anything up to a closing brace, with an opening brace
illegal inside a field name). -/
def fieldChar (c : Char) : Bool := !(c == rbrace) && !(c == lbrace)

/-- Python `template.format(company_name = n)`: `\x7b\x7b` and `\x7d\x7d`
unescape to single braces, the `company_name` replacement field
substitutes `n`, and a stray single brace or any other field makes the
call raise (`none`).  Replacement fields carrying a conversion or format
specification (a `!` or `:` suffix) are not modelled and are treated as
failing; the brace-escaping step never produces such a field, so on
every cleaned template this model agrees with Python. -/
def pyFormatGo (n : Str) : Nat → Str → Option Str
  | _, [] => some []
  | 0, _ => none
  | fuel + 1, c :: rest =>
    if c = lbrace then
      match rest with
      | [] => none
      | c2 :: rest2 =>
        if c2 = lbrace then (pyFormatGo n fuel rest2).map (fun t => lbrace :: t)
        else
          let field := (c2 :: rest2).takeWhile fieldChar
          let rem := (c2 :: rest2).drop field.length
          if field = cnKey ∧ rem.head? = some rbrace then
            (pyFormatGo n fuel (rem.drop 1)).map (fun t => n ++ t)
          else none
    else if c = rbrace then
      match rest with
      | [] => none
      | c2 :: rest2 =>
        if c2 = rbrace then (pyFormatGo n fuel rest2).map (fun t => rbrace :: t)
        else none
    else (pyFormatGo n fuel rest).map (fun t => c :: t)

/-- Python `template.format(company_name = n)` (see the doc comment of
`fieldChar`): doubled braces unescape to single braces, the
`company_name` replacement field substitutes `n`, and a stray single
brace or any other field makes the call raise (`none`). -/
def pyFormat (n s : Str) : Option Str := pyFormatGo n s.length s

/-- The per-line comment handling of `clean_json_syntax` (utils.py lines
26-35): a line containing `//` keeps the right-stripped text before the
first `//` when the marker is not at column 0, is dropped entirely when
the marker is at column 0, and a line without `//` is kept unchanged. -/
def cleanCommentLine (line : Str) : Option Str :=
  if containsSub dslash line then
    match pyFind dslash line with
    | some i => if 0 < i then some (pyRstrip (line.take i)) else none
    | none => some line
  else some line

/-- The comment-stripping stage of `clean_json_syntax` (utils.py lines
24-37): apply `cleanCommentLine` to each line and rejoin. -/
def strip_comments (text : Str) : Str :=
  joinNL ((splitNL text).filterMap cleanCommentLine)

/-- Embedding of `clean_json_syntax` (utils.py): strip `//` comments line by line,
double every brace, then restore the doubled placeholder to its
single-brace form. -/
def clean_json_syntax (text : Str) : Str :=
  let cleaned_text := strip_comments text
  replaceAll plc2 plc
    (replaceAll [rbrace] [rbrace, rbrace]
      (replaceAll [lbrace] [lbrace, lbrace] cleaned_text))

/-- The prompt-building step of the Streamlit analysis tab (lines
124-130 of company_analysis_tab.py): clean the template, then either
format-substitute the company name or append it as a trailing line. -/
def format_prompt (template name : Str) : Option Str :=
  let cleaned := clean_json_syntax template
  if containsSub plc cleaned then pyFormat name cleaned
  else some (cleaned ++ strOf "\n\nCompany to analyze: " ++ name)

/-- Python/JSON values as they flow through the dashboard. -/
inductive PyVal where
  | vnull : PyVal
  | vbool : Bool → PyVal
  | vnum : Int → PyVal
  | vstr : Str → PyVal
  | vlist : List PyVal → PyVal
  | vdict : List (Str × PyVal) → PyVal

/-- Whether a value is a Python dict (`isinstance(x, dict)`). -/
def isDictV : PyVal → Bool
  | .vdict _ => true
  | _ => false

/-- Lookup in a Python dict (keys are unique in every dict built here). -/
def dictLookup (m : List (Str × PyVal)) (k : Str) : Option PyVal :=
  match m with
  | [] => none
  | p :: rest => if p.1 = k then some p.2 else dictLookup rest k

/-- The external collaborators of a run and the impure ambient data:
the chat-completion endpoint (`api`, returning either the first choice's
text or the message of a raised exception), the stdlib JSON decoder
(`decode`, `json.loads`), Python's `str()` rendering of non-string
values (`render`), the message of a template-formatting exception
(`fmtErr`), and the wall-clock strings (`ts` for per-item
`datetime.now().isoformat()`, `now` for the batch-level one). -/
structure ApiEnv where
  api : Str → Except Str Str
  decode : Str → Option PyVal
  render : PyVal → Str
  fmtErr : Str
  ts : Str
  now : Str

/-- Response normalization of the Streamlit tab: strict JSON parse with
raw-string fallback. -/
def pyNormalize (env : ApiEnv) (content : Str) : PyVal :=
  match env.decode content with
  | some v => v
  | none => .vstr content

/-- Response normalization of the Gradio app: strict JSON parse with a
`raw_output` wrapper dict as fallback. -/
def gNormalize (env : ApiEnv) (content : Str) : PyVal :=
  match env.decode content with
  | some v => v
  | none => .vdict [(strOf "raw_output", .vstr content)]

/-- One element of the Streamlit batch results list
(`\x7bcompany, analysis, timestamp\x7d`). -/
structure ResultEntry where
  company : PyVal
  analysis : PyVal
  timestamp : Str

/-- Name resolution of the Streamlit batch loop (company_analysis_tab.py
lines 334-339): a dict with a `name` key yields that value, a string
yields itself, anything else is skipped (`continue`). -/
def companyNameOf (c : PyVal) : Option PyVal :=
  match c with
  | .vdict m => dictLookup m (strOf "name")
  | .vstr s => some (.vstr s)
  | _ => none

/-- Python string rendering of a resolved name as it reaches the format
call (`str()` is the identity on strings). -/
def renderName (env : ApiEnv) (v : PyVal) : Str :=
  match v with
  | .vstr s => s
  | v => env.render v

/-- The `analysis` value recorded for one processed company in the
Streamlit batch loop: the try-block formats the prompt and calls the
completion API, and any raised exception is recorded as an
`Error: <message>` string (lines 345-406). -/
def analysisFor (env : ApiEnv) (template name : Str) : PyVal :=
  match format_prompt template name with
  | none => .vstr (strOf "Error: " ++ env.fmtErr)
  | some fp =>
    match env.api fp with
    | .error m => .vstr (strOf "Error: " ++ m)
    | .ok content => pyNormalize env content

/-- The results-list entry appended for one processable record. -/
def sEntryFor (env : ApiEnv) (template : Str) (nv : PyVal) : ResultEntry :=
  ⟨nv, analysisFor env template (renderName env nv), env.ts⟩

/-- One iteration of the Streamlit batch loop: skip unprocessable
shapes, otherwise append exactly one entry (success or error). -/
def processItem (env : ApiEnv) (template : Str) (c : PyVal) : Option ResultEntry :=
  match companyNameOf c with
  | none => none
  | some nv => some (sEntryFor env template nv)

/-- The download formatting of one result entry (company_analysis_tab.py
lines 416-433): a dict analysis keeps `\x7bcompany, analysis\x7d` (the
timestamp is dropped), any other analysis is wrapped in an error object. -/
def formatResultEntry (r : ResultEntry) : PyVal :=
  match r.analysis with
  | .vdict m => .vdict [(strOf "company", r.company), (strOf "analysis", .vdict m)]
  | a =>
    .vdict [(strOf "company", r.company),
      (strOf "analysis",
        .vdict [(strOf "company_name", r.company),
          (strOf "main_twitter_handle", .vnull),
          (strOf "error", a)])]

/-- The session state written by the Streamlit bulk run: the raw results
list and the downloadable content (the value serialized by
`json.dumps`). -/
structure BulkRunState where
  batch_results : List ResultEntry
  output_file : PyVal

/-- The whole Streamlit bulk run (company_analysis_tab.py lines
330-437): process the records in order, store the results list, and
store the reformatted bare array as the downloadable content. -/
def bulk_run (env : ApiEnv) (template : Str) (json_data : List PyVal) : BulkRunState :=
  let results := json_data.filterMap (processItem env template)
  { batch_results := results
    output_file := .vlist (results.map formatResultEntry) }

/-- Observable outcome of a click on the Streamlit single-run button. -/
inductive SingleOutcome where
  | uiError : Str → SingleOutcome
  | stored : PyVal → SingleOutcome

/-- The Streamlit single run (company_analysis_tab.py lines 116-164),
paired with the number of completion-API calls it makes. -/
def single_run (env : ApiEnv) (company_name api_key template : Str) :
    SingleOutcome × Nat :=
  if company_name = [] then (.uiError (strOf "Please enter a company name"), 0)
  else if api_key = [] then (.uiError (strOf "Please enter your OpenAI API key"), 0)
  else
    match format_prompt template company_name with
    | none => (.uiError (strOf "Error generating analysis: " ++ env.fmtErr), 0)
    | some fp =>
      match env.api fp with
      | .error m => (.uiError (strOf "Error generating analysis: " ++ m), 1)
      | .ok content => (.stored (pyNormalize env content), 1)

/-- One element of the Gradio batch results (`\x7bcompany, analysis\x7d`,
no timestamp). -/
structure GEntry where
  company : Str
  analysis : PyVal

/-- The Gradio `run_single` (gradio_app.py lines 15-38), paired with the
number of completion-API calls; an exception of the unguarded call
propagates as `.error`. -/
def run_single (env : ApiEnv) (company_name api_key prompt : Str) :
    Except Str PyVal × Nat :=
  if company_name = [] then
    (.ok (.vdict [(strOf "error", .vstr (strOf "Please enter a company name"))]), 0)
  else if api_key = [] then
    (.ok (.vdict [(strOf "error", .vstr (strOf "Please enter API key"))]), 0)
  else
    match env.api (replaceAll plc company_name prompt) with
    | .error m => (.error m, 1)
    | .ok content => (.ok (gNormalize env content), 1)

/-- Name resolution of the Gradio batch loop (gradio_app.py lines
52-55): `company.get("name") if isinstance(company, dict) else
str(company)`.  A dict whose `name` is absent or not a string makes the
subsequent `str.replace` raise a TypeError, which is not caught. -/
def gResolveName (env : ApiEnv) (c : PyVal) : Except Str Str :=
  match c with
  | .vdict m =>
    match dictLookup m (strOf "name") with
    | some (.vstr s) => .ok s
    | _ => .error (strOf "TypeError")
  | .vstr s => .ok s
  | v => .ok (env.render v)

/-- The `analysis` value of one Gradio batch item (the try-block of
gradio_app.py lines 57-74). -/
def gAnalysisFor (env : ApiEnv) (prompt name : Str) : PyVal :=
  match env.api (replaceAll plc name prompt) with
  | .error m => .vstr (strOf "Error: " ++ m)
  | .ok content => gNormalize env content

/-- The entry the Gradio loop appends for one record. -/
def gEntryFor (env : ApiEnv) (prompt name : Str) : GEntry :=
  ⟨name, gAnalysisFor env prompt name⟩

/-- The Gradio batch loop (gradio_app.py lines 51-74): every record is
processed in order; an uncaught name-resolution TypeError aborts the
whole run. -/
def run_batch (env : ApiEnv) (prompt : Str) : List PyVal → Except Str (List GEntry)
  | [] => .ok []
  | c :: rest =>
    match gResolveName env c with
    | .error e => .error e
    | .ok name => (run_batch env prompt rest).map (fun rs => gEntryFor env prompt name :: rs)

/-- JSON shape of one Gradio result entry inside the batch output. -/
def gEntryVal (e : GEntry) : PyVal :=
  .vdict [(strOf "company", .vstr e.company), (strOf "analysis", e.analysis)]

/-- What a completed Gradio batch run produces: the results list, the
assembled batch-output structure, and the value written to the
downloadable JSON file. -/
structure GBatchOut where
  results : List GEntry
  output_data : PyVal
  saved_file : PyVal

/-- The full Gradio `run_batch` (gradio_app.py lines 41-87): run the
loop, assemble `\x7bgenerated_at, total_companies, results\x7d`, and
`json.dump` exactly that structure to the download file. -/
def run_batch_full (env : ApiEnv) (prompt : Str) (data : List PyVal) :
    Except Str GBatchOut :=
  (run_batch env prompt data).map (fun results =>
    let od : PyVal := .vdict
      [(strOf "generated_at", .vstr env.now),
       (strOf "total_companies", .vnum results.length),
       (strOf "results", .vlist (results.map gEntryVal))]
    ⟨results, od, od⟩)

/-- Association-list lookup for the configuration mapping. -/
def assocLookup (m : List (Str × Str)) (k : Str) : Option Str :=
  match m with
  | [] => none
  | p :: rest => if p.1 = k then some p.2 else assocLookup rest k

/-- Python dict assignment `m[k] = v` (in-place update, insertion order
preserved, appended when absent). -/
def upsert (m : List (Str × Str)) (k v : Str) : List (Str × Str) :=
  if m.any (fun p => decide (p.1 = k)) then
    m.map (fun p => if p.1 = k then (k, v) else p)
  else m ++ [(k, v)]

/-- One iteration of the `parse_env_content` loop (utils.py lines
12-18): strip the line, skip it when blank / comment-leading / without
`=`, otherwise split at the first `=`, strip the key, and strip the
value of whitespace, then of all double quotes, then of all single
quotes, storing the pair into the accumulated dict. -/
def parse_env_line (env_vars : List (Str × Str)) (rawLine : Str) : List (Str × Str) :=
  let line := pyStrip rawLine
  if line ≠ [] ∧ line.head? ≠ some '#' ∧ containsSub ['='] line then
    match pyFind ['='] line with
    | some i =>
      upsert env_vars (pyStrip (line.take i))
        (pyStripChars [squote] (pyStripChars [dquote] (pyStrip (line.drop (i + 1)))))
    | none => env_vars
  else env_vars

/-- Embedding of `parse_env_content` (utils.py lines 9-19): split on
newlines and fold the per-line step over the lines in order, starting
from the empty dict. -/
def parse_env_content (env_content : Str) : List (Str × Str) :=
  (splitNL env_content).foldl parse_env_line []

/-- The session-state fields touched by configuration saves; the OpenAI
client object is modelled by the API key it was constructed with. -/
structure SessionState where
  config_settings : List (Str × Str)
  openai_api_key : Str
  openai_client : Option Str

/-- Embedding of `save_config_to_session` (utils.py lines 69-75): the whole
mapping is replaced, and the key/client session fields follow when the
new mapping carries an API key. -/
def save_config_to_session (config : List (Str × Str)) (s : SessionState) : SessionState :=
  let s1 : SessionState := { s with config_settings := config }
  match assocLookup config (strOf "OPENAI_API_KEY") with
  | some k => { s1 with openai_api_key := k, openai_client := some k }
  | none => s1

/-- The save handler of the Settings tab (settings_tab.py lines 66-83):
build the new mapping from the widgets, add the typed API key when it is
non-blank, otherwise carry over the previously stored key when line 79's
truthiness test `config_settings.get('OPENAI_API_KEY')` passes — false
both for an absent key and for a stored empty string — then replace the
session configuration. -/
def save_individual_settings (openai_key model_name max_tokens temperature : Str)
    (s : SessionState) : SessionState :=
  let config : List (Str × Str) :=
    [(strOf "OPENAI_MODEL", model_name),
     (strOf "MAX_TOKENS", max_tokens),
     (strOf "TEMPERATURE", temperature)]
  let config :=
    if pyStrip openai_key ≠ [] then upsert config (strOf "OPENAI_API_KEY") openai_key
    else
      match assocLookup s.config_settings (strOf "OPENAI_API_KEY") with
      | some old =>
        if old ≠ [] then upsert config (strOf "OPENAI_API_KEY") old else config
      | none => config
  save_config_to_session config s

/-- A PyVal-level dict lookup (`none` on non-dicts). -/
def pyGet (v : PyVal) (k : Str) : Option PyVal :=
  match v with
  | .vdict m => dictLookup m k
  | _ => none

/-- A concrete environment whose completion call always succeeds with a
non-JSON body, used to instantiate universally quantified theorems. -/
def sampleEnv : ApiEnv where
  api := fun _ => .ok (strOf "out")
  decode := fun _ => none
  render := fun _ => strOf "obj"
  fmtErr := strOf "fmt"
  ts := strOf "TS"
  now := strOf "NOW"

/-- A concrete environment whose completion call fails exactly on the
prompt built for company `B`. -/
def envErrB : ApiEnv where
  api := fun p => if p = strOf "Hi B" then .error (strOf "boom") else .ok (strOf "other")
  decode := fun _ => none
  render := fun _ => strOf "obj"
  fmtErr := strOf "fmt"
  ts := strOf "TS"
  now := strOf "NOW"

/-- A short template containing the placeholder. -/
def tmplHi : Str := strOf "Hi " ++ plc

/-- A template consisting of a single comment line that contains the
placeholder; comment stripping removes the whole line. -/
def tmplComment : Str := dslash ++ [' '] ++ plc

/-- Comparator for claim C8, following the claim words only: remove one
layer of matching surrounding quotes. -/
def unquoteSingleLayer (s : Str) : Str :=
  if 2 ≤ s.length ∧ s.head? = s.getLast? ∧ (s.head? = some dquote ∨ s.head? = some squote)
  then (s.drop 1).dropLast
  else s

theorem replaceAllGo_succ (p r : Str) :
    ∀ f s, List.length s ≤ f → replaceAllGo p r (f + 1) s = replaceAllGo p r f s := by
  intro f
  induction f with
  | zero =>
    intro s hs
    cases s with
    | nil => rfl
    | cons c rest => simp at hs
  | succ f ih =>
    intro s hs
    cases s with
    | nil => rfl
    | cons c rest =>
      simp only [List.length_cons] at hs
      simp only [replaceAllGo]
      by_cases h : p.isPrefixOf (c :: rest) ∧ p ≠ []
      · rw [if_pos h, if_pos h, ih _ (by simp only [List.length_drop]; omega)]
      · rw [if_neg h, if_neg h, ih _ (by omega)]

theorem replaceAllGo_fuel (p r : Str) :
    ∀ fuel s, List.length s ≤ fuel → replaceAllGo p r fuel s = replaceAll p r s := by
  intro fuel
  induction fuel with
  | zero =>
    intro s hs
    cases s with
    | nil => rfl
    | cons c rest => simp at hs
  | succ f ih =>
    intro s hs
    rcases Nat.eq_or_lt_of_le hs with heq | hlt
    · unfold replaceAll
      rw [← heq]
    · have hle : List.length s ≤ f := by omega
      rw [replaceAllGo_succ p r f s hle, ih s hle]

theorem replaceAll_cons (p r : Str) (c : Char) (rest : Str) :
    replaceAll p r (c :: rest) =
      if p.isPrefixOf (c :: rest) ∧ p ≠ [] then
        r ++ replaceAll p r (rest.drop (p.length - 1))
      else c :: replaceAll p r rest := by
  show replaceAllGo p r (rest.length + 1) (c :: rest) = _
  simp only [replaceAllGo]
  by_cases h : p.isPrefixOf (c :: rest) ∧ p ≠ []
  · rw [if_pos h, if_pos h,
      replaceAllGo_fuel p r rest.length _ (by simp only [List.length_drop]; omega)]
  · rw [if_neg h, if_neg h, replaceAllGo_fuel p r rest.length _ (by omega)]

theorem escKeepPlcGo_succ :
    ∀ f s, List.length s ≤ f → escKeepPlcGo (f + 1) s = escKeepPlcGo f s := by
  intro f
  induction f with
  | zero =>
    intro s hs
    cases s with
    | nil => rfl
    | cons c rest => simp at hs
  | succ f ih =>
    intro s hs
    cases s with
    | nil => rfl
    | cons c rest =>
      simp only [List.length_cons] at hs
      simp only [escKeepPlcGo]
      by_cases h1 : c = lbrace ∧ cnClose.isPrefixOf rest
      · rw [if_pos h1, if_pos h1, ih _ (by simp only [List.length_drop]; omega)]
      · rw [if_neg h1, if_neg h1]
        by_cases h2 : c = lbrace
        · rw [if_pos h2, if_pos h2, ih _ (by omega)]
        · rw [if_neg h2, if_neg h2]
          by_cases h3 : c = rbrace
          · rw [if_pos h3, if_pos h3, ih _ (by omega)]
          · rw [if_neg h3, if_neg h3, ih _ (by omega)]

theorem escKeepPlcGo_fuel :
    ∀ fuel s, List.length s ≤ fuel → escKeepPlcGo fuel s = escKeepPlc s := by
  intro fuel
  induction fuel with
  | zero =>
    intro s hs
    cases s with
    | nil => rfl
    | cons c rest => simp at hs
  | succ f ih =>
    intro s hs
    rcases Nat.eq_or_lt_of_le hs with heq | hlt
    · unfold escKeepPlc
      rw [← heq]
    · have hle : List.length s ≤ f := by omega
      rw [escKeepPlcGo_succ f s hle, ih s hle]

theorem escKeepPlc_cons (c : Char) (rest : Str) :
    escKeepPlc (c :: rest) =
      if c = lbrace ∧ cnClose.isPrefixOf rest then plc ++ escKeepPlc (rest.drop 13)
      else if c = lbrace then lbrace :: lbrace :: escKeepPlc rest
      else if c = rbrace then rbrace :: rbrace :: escKeepPlc rest
      else c :: escKeepPlc rest := by
  show escKeepPlcGo (rest.length + 1) (c :: rest) = _
  simp only [escKeepPlcGo]
  by_cases h1 : c = lbrace ∧ cnClose.isPrefixOf rest
  · rw [if_pos h1, if_pos h1,
      escKeepPlcGo_fuel rest.length _ (by simp only [List.length_drop]; omega)]
  · rw [if_neg h1, if_neg h1]
    by_cases h2 : c = lbrace
    · rw [if_pos h2, if_pos h2, escKeepPlcGo_fuel rest.length _ (by omega)]
    · rw [if_neg h2, if_neg h2]
      by_cases h3 : c = rbrace
      · rw [if_pos h3, if_pos h3, escKeepPlcGo_fuel rest.length _ (by omega)]
      · rw [if_neg h3, if_neg h3, escKeepPlcGo_fuel rest.length _ (by omega)]

theorem pyFormatGo_succ (n : Str) :
    ∀ f s, List.length s ≤ f → pyFormatGo n (f + 1) s = pyFormatGo n f s := by
  intro f
  induction f with
  | zero =>
    intro s hs
    cases s with
    | nil => rfl
    | cons c rest => simp at hs
  | succ f ih =>
    intro s hs
    cases s with
    | nil => rfl
    | cons c rest =>
      simp only [List.length_cons] at hs
      simp only [pyFormatGo]
      by_cases h1 : c = lbrace
      · rw [if_pos h1, if_pos h1]
        cases rest with
        | nil => rfl
        | cons c2 rest2 =>
          dsimp only
          simp only [List.length_cons] at hs
          by_cases h2 : c2 = lbrace
          · rw [if_pos h2, if_pos h2, ih _ (by omega)]
          · rw [if_neg h2, if_neg h2]
            by_cases h3 : (c2 :: rest2).takeWhile fieldChar = cnKey ∧
                ((c2 :: rest2).drop ((c2 :: rest2).takeWhile fieldChar).length).head? =
                  some rbrace
            · rw [if_pos h3, if_pos h3,
                ih _ (by simp only [List.length_drop, List.length_cons]; omega)]
            · rw [if_neg h3, if_neg h3]
      · rw [if_neg h1, if_neg h1]
        by_cases h4 : c = rbrace
        · rw [if_pos h4, if_pos h4]
          cases rest with
          | nil => rfl
          | cons c2 rest2 =>
            dsimp only
            simp only [List.length_cons] at hs
            by_cases h5 : c2 = rbrace
            · rw [if_pos h5, if_pos h5, ih _ (by omega)]
            · rw [if_neg h5, if_neg h5]
        · rw [if_neg h4, if_neg h4, ih _ (by omega)]

theorem pyFormatGo_fuel (n : Str) :
    ∀ fuel s, List.length s ≤ fuel → pyFormatGo n fuel s = pyFormat n s := by
  intro fuel
  induction fuel with
  | zero =>
    intro s hs
    cases s with
    | nil => rfl
    | cons c rest => simp at hs
  | succ f ih =>
    intro s hs
    rcases Nat.eq_or_lt_of_le hs with heq | hlt
    · unfold pyFormat
      rw [← heq]
    · have hle : List.length s ≤ f := by omega
      rw [pyFormatGo_succ n f s hle, ih s hle]

theorem pyFormat_cons (n : Str) (c : Char) (rest : Str) :
    pyFormat n (c :: rest) =
      if c = lbrace then
        match rest with
        | [] => none
        | c2 :: rest2 =>
          if c2 = lbrace then (pyFormat n rest2).map (fun t => lbrace :: t)
          else
            if (c2 :: rest2).takeWhile fieldChar = cnKey ∧
                ((c2 :: rest2).drop ((c2 :: rest2).takeWhile fieldChar).length).head? =
                  some rbrace then
              (pyFormat n (((c2 :: rest2).drop
                ((c2 :: rest2).takeWhile fieldChar).length).drop 1)).map (fun t => n ++ t)
            else none
      else if c = rbrace then
        match rest with
        | [] => none
        | c2 :: rest2 =>
          if c2 = rbrace then (pyFormat n rest2).map (fun t => rbrace :: t)
          else none
      else (pyFormat n rest).map (fun t => c :: t) := by
  show pyFormatGo n (rest.length + 1) (c :: rest) = _
  simp only [pyFormatGo]
  by_cases h1 : c = lbrace
  · rw [if_pos h1, if_pos h1]
    cases rest with
    | nil => rfl
    | cons c2 rest2 =>
      dsimp only
      by_cases h2 : c2 = lbrace
      · rw [if_pos h2, if_pos h2,
          pyFormatGo_fuel n (c2 :: rest2).length rest2 (by simp)]
      · rw [if_neg h2, if_neg h2]
        by_cases h3 : (c2 :: rest2).takeWhile fieldChar = cnKey ∧
            ((c2 :: rest2).drop ((c2 :: rest2).takeWhile fieldChar).length).head? =
              some rbrace
        · rw [if_pos h3, if_pos h3,
            pyFormatGo_fuel n (c2 :: rest2).length _
              (by simp only [List.length_drop, List.length_cons]; omega)]
        · rw [if_neg h3, if_neg h3]
  · rw [if_neg h1, if_neg h1]
    by_cases h4 : c = rbrace
    · rw [if_pos h4, if_pos h4]
      cases rest with
      | nil => rfl
      | cons c2 rest2 =>
        dsimp only
        by_cases h5 : c2 = rbrace
        · rw [if_pos h5, if_pos h5,
            pyFormatGo_fuel n (c2 :: rest2).length rest2 (by simp)]
        · rw [if_neg h5, if_neg h5]
    · rw [if_neg h4, if_neg h4, pyFormatGo_fuel n rest.length rest (by omega)]

theorem containsSub_nil (p : Str) : containsSub p ([] : Str) = p.isPrefixOf ([] : Str) := by
  simp only [containsSub, pyFind]
  by_cases h : p.isPrefixOf ([] : Str) = true <;> simp [h]

theorem containsSub_cons (p : Str) (c : Char) (rest : Str) :
    containsSub p (c :: rest) = (p.isPrefixOf (c :: rest) || containsSub p rest) := by
  simp only [containsSub, pyFind]
  by_cases h : p.isPrefixOf (c :: rest) = true <;> simp [h]

theorem containsSub_of_isPrefixOf (p s : Str) (h : p.isPrefixOf s = true) :
    containsSub p s = true := by
  cases s with
  | nil => rw [containsSub_nil, h]
  | cons c rest => rw [containsSub_cons, h, Bool.true_or]

/-- The first occurrence of a nonempty pattern `p` in `u ++ p ++ v` sits
at index `u.length` provided no occurrence starts earlier, i.e. provided
`p` does not occur in `u ++ p.dropLast`. -/
theorem pyFind_append (p : Str) (hp : p ≠ []) :
    ∀ u v : Str, containsSub p (u ++ p.dropLast) = false →
      pyFind p (u ++ (p ++ v)) = some u.length := by
  intro u
  induction u with
  | nil =>
    intro v _
    have hpre : p.isPrefixOf (p ++ v) = true := by
      rw [List.isPrefixOf_iff_prefix]
      exact List.prefix_append p v
    cases hq : p ++ v with
    | nil =>
      exact absurd (List.append_eq_nil.mp hq).1 hp
    | cons a w =>
      rw [← hq]
      show pyFind p ([] ++ (p ++ v)) = some (List.length ([] : Str))
      rw [List.nil_append, hq]
      unfold pyFind
      rw [← hq, if_pos hpre]
      rfl
  | cons c u' ih =>
    intro v h
    have hsplit : (c :: u') ++ p.dropLast ++ (p.getLast hp :: v) = (c :: u') ++ (p ++ v) := by
      rw [List.append_assoc]
      congr 1
      rw [show p.getLast hp :: v = [p.getLast hp] ++ v from rfl, ← List.append_assoc,
        List.dropLast_append_getLast hp]
    have hlen : p.length ≤ ((c :: u') ++ p.dropLast).length := by
      rw [List.length_append, List.length_dropLast, List.length_cons]
      have : 0 < p.length := List.length_pos.mpr hp
      omega
    have hnp : p.isPrefixOf ((c :: u') ++ (p ++ v)) = false := by
      by_contra hcon
      have hpre : p <+: (c :: u') ++ (p ++ v) := by
        rw [← List.isPrefixOf_iff_prefix]
        revert hcon
        cases p.isPrefixOf ((c :: u') ++ (p ++ v)) <;> simp
      rw [← hsplit] at hpre
      have htake := List.prefix_iff_eq_take.mp hpre
      rw [List.take_append_eq_append_take,
        Nat.sub_eq_zero_of_le hlen, List.take_zero, List.append_nil] at htake
      have hpre2 : p.isPrefixOf ((c :: u') ++ p.dropLast) = true := by
        rw [List.isPrefixOf_iff_prefix]
        conv_lhs => rw [htake]
        exact List.take_prefix _ _
      rw [containsSub_of_isPrefixOf _ _ hpre2] at h
      exact absurd h (by decide)
    have htail : containsSub p (u' ++ p.dropLast) = false := by
      have := containsSub_cons p c (u' ++ p.dropLast)
      rw [show (c :: u') ++ p.dropLast = c :: (u' ++ p.dropLast) from rfl] at h
      rw [h] at this
      exact (Bool.or_eq_false_iff.mp this.symm).2
    show pyFind p (c :: (u' ++ (p ++ v))) = some (u'.length + 1)
    unfold pyFind
    have hnp2 : List.isPrefixOf p (c :: (u' ++ (p ++ v))) = false := hnp
    rw [hnp2]
    simp only [Bool.false_eq_true, if_false]
    rw [ih v htail]
    rfl

theorem cleanCommentLine_at (u v : Str) (h : containsSub dslash (u ++ ['/']) = false) :
    cleanCommentLine ((u ++ dslash) ++ v) =
      if u = [] then none else some (pyRstrip u) := by
  have hfind : pyFind dslash (u ++ (dslash ++ v)) = some u.length :=
    pyFind_append dslash (by decide) u v h
  have hassoc : (u ++ dslash) ++ v = u ++ (dslash ++ v) := List.append_assoc u dslash v
  have hcont : containsSub dslash (u ++ (dslash ++ v)) = true := by
    simp only [containsSub, hfind, Option.isSome_some]
  unfold cleanCommentLine
  rw [hassoc, hcont, if_pos rfl, hfind]
  dsimp only
  cases hu : u with
  | nil =>
    simp
  | cons a u2 =>
    rw [← hu]
    have hlen : 0 < u.length := by rw [hu]; simp
    rw [if_pos hlen, if_neg (by rw [hu]; exact List.cons_ne_nil a u2)]
    rw [List.take_left u (dslash ++ v)]

theorem splitNL_no_nl (s : Str) (h : ¬ '\n' ∈ s) : splitNL s = [s] := by
  induction s with
  | nil => rfl
  | cons c rest ih =>
    have hc : ¬ c = '\n' := fun hcc => h (hcc ▸ List.mem_cons_self c rest)
    have hr : ¬ '\n' ∈ rest := fun hm => h (List.mem_cons_of_mem c hm)
    unfold splitNL
    rw [if_neg hc, ih hr]

theorem length_filterMap_add {α β : Type} (f : α → Option β) (l : List α) :
    (l.filterMap f).length + (l.countP fun a => (f a).isNone) = l.length := by
  induction l with
  | nil => simp
  | cons a l ih =>
    cases h : f a with
    | none => simp [List.filterMap_cons, h, List.countP_cons]; omega
    | some b => simp [List.filterMap_cons, h, List.countP_cons]; omega

theorem bulk_run_results (env : ApiEnv) (t : Str) (data : List PyVal) :
    (bulk_run env t data).batch_results =
      (data.filterMap companyNameOf).map (sEntryFor env t) := by
  show data.filterMap (processItem env t) = _
  induction data with
  | nil => rfl
  | cons c rest ih =>
    cases h : companyNameOf c with
    | none => simp [List.filterMap_cons, processItem, h, ih]
    | some nv => simp [List.filterMap_cons, processItem, h, ih]

theorem run_batch_strings (env : ApiEnv) (p : Str) :
    ∀ names : List Str,
      run_batch env p (names.map PyVal.vstr) = .ok (names.map (gEntryFor env p)) := by
  intro names
  induction names with
  | nil => rfl
  | cons s rest ih => simp [run_batch, gResolveName, ih, Except.map]

theorem save_config_settings (config : List (Str × Str)) (s : SessionState) :
    (save_config_to_session config s).config_settings = config := by
  unfold save_config_to_session
  cases assocLookup config (strOf "OPENAI_API_KEY") <;> rfl

/-- Claim C5 (counterexample): the comment-stripping step does not
merely remove the text from the first `//` to end-of-line — it also
strips the whitespace left before the comment.  On the line `a //b` the
code produces `a`, while removing only the comment text would leave the
two-character string `a` followed by a space. -/
theorem claim_C5_counterexample :
    strip_comments (strOf "a //b") = strOf "a" ∧
    (strOf "a //b").take 2 = strOf "a " ∧
    strOf "a" ≠ strOf "a " := by decide

/-- Claim C5 (amended): on each line, the text from the first `//` to
end-of-line is removed together with any whitespace immediately before
it; a line whose `//` sits at column 0 is dropped entirely; a line
without `//` is kept unchanged; `strip_comments` applies this per line. -/
theorem claim_C5 (line u v : Str) :
    (containsSub dslash line = false → cleanCommentLine line = some line) ∧
    (containsSub dslash (u ++ ['/']) = false →
      cleanCommentLine ((u ++ dslash) ++ v) =
        if u = [] then none else some (pyRstrip u)) ∧
    strip_comments line = joinNL ((splitNL line).filterMap cleanCommentLine) := by
  refine ⟨?_, fun h => cleanCommentLine_at u v h, rfl⟩
  intro h
  unfold cleanCommentLine
  rw [h]
  simp

/-- Claim C5 witness: a comment-free line is kept unchanged, and the
line `a //b` keeps `a` (the marker is at index 2, and the space before
it is stripped). -/
theorem claim_C5_witness :
    cleanCommentLine (strOf "xy") = some (strOf "xy") ∧
    cleanCommentLine ((strOf "a " ++ dslash) ++ strOf "b") = some (strOf "a") := by
  have h := claim_C5 (strOf "xy") (strOf "a ") (strOf "b")
  exact ⟨h.1 (by decide), (h.2.1 (by decide)).trans (by decide)⟩

/-- Claim C7: when the cleaned template lacks the placeholder, the
formatted prompt is the cleaned text followed by the trailing line
`Company to analyze: <name>`, so the output ends with the name. -/
theorem claim_C7 (template name : Str)
    (h : containsSub plc ( clean_json_syntax template) = false) :
    format_prompt template name =
      some ( clean_json_syntax template ++ strOf "\n\nCompany to analyze: " ++ name) ∧
    ∃ pre, format_prompt template name = some (pre ++ name) := by
  have hbranch : format_prompt template name =
      some ( clean_json_syntax template ++ strOf "\n\nCompany to analyze: " ++ name) := by
    simp only [format_prompt]
    rw [h]
    simp
  exact ⟨hbranch, clean_json_syntax template ++ strOf "\n\nCompany to analyze: ",
    hbranch.trans (by rw [List.append_assoc])⟩

/-- Claim C7 witness, at a placeholder-free template. -/
theorem claim_C7_witness :
    format_prompt (strOf "Hello") (strOf "Acme") =
      some ( clean_json_syntax (strOf "Hello") ++ strOf "\n\nCompany to analyze: " ++
        strOf "Acme") ∧
    ∃ pre, format_prompt (strOf "Hello") (strOf "Acme") = some (pre ++ strOf "Acme") :=
  claim_C7 (strOf "Hello") (strOf "Acme") (by decide)

/-- Claim C8 (counterexample): the value unquoting is not the removal of
a single layer of matching quotes: on the line `K=""v""` the parser
stores the bare `v`, while removing one matching layer would leave `"v"`. -/
theorem claim_C8_counterexample :
    parse_env_content (strOf "K=" ++ [dquote, dquote] ++ strOf "v" ++ [dquote, dquote]) =
      [(strOf "K", strOf "v")] ∧
    unquoteSingleLayer ([dquote, dquote] ++ strOf "v" ++ [dquote, dquote]) =
      [dquote] ++ strOf "v" ++ [dquote] ∧
    ([dquote] ++ strOf "v" ++ [dquote] : Str) ≠ strOf "v" := by decide

/-- Claim C8 (amended): every settings blob is parsed by folding one
per-line step over its newline-split lines, starting from the empty
mapping, and the step obeys the claimed per-line behavior from any
accumulated mapping: a line that strips to blank, or whose stripped form
begins with `#`, or that contains no `=`, contributes nothing; a
stripped line containing `=` is split at the first `=`, the key is
whitespace-stripped, and the value is whitespace-stripped and then
stripped of all leading and trailing double quotes and then of all
leading and trailing single quotes (regardless of pairing), the pair
overwriting any earlier binding of the key. -/
theorem claim_C8 (env : List (Str × Str)) (line u v raw : Str) :
    parse_env_content raw = (splitNL raw).foldl parse_env_line [] ∧
    (pyStrip line = [] → parse_env_line env line = env) ∧
    ((pyStrip line).head? = some '#' → parse_env_line env line = env) ∧
    (containsSub ['='] (pyStrip line) = false → parse_env_line env line = env) ∧
    (pyStrip line = (u ++ ['=']) ++ v → containsSub ['='] u = false →
      ((u ++ ['=']) ++ v).head? ≠ some '#' →
      parse_env_line env line =
        upsert env (pyStrip u)
          (pyStripChars [squote] (pyStripChars [dquote] (pyStrip v)))) := by
  refine ⟨rfl, ?_, ?_, ?_, ?_⟩
  · intro hblank
    simp only [parse_env_line]
    exact if_neg (fun hc => hc.1 hblank)
  · intro hhash
    simp only [parse_env_line]
    exact if_neg (fun hc => hc.2.1 hhash)
  · intro hnoeq
    simp only [parse_env_line]
    exact if_neg (fun hc => absurd hc.2.2 (by rw [hnoeq]; simp))
  · intro hline hfirst hhash
    simp only [parse_env_line]
    have hassoc : (u ++ ['=']) ++ v = u ++ (['='] ++ v) := List.append_assoc u ['='] v
    have hfind : pyFind ['='] (pyStrip line) = some u.length := by
      rw [hline, hassoc]
      exact pyFind_append ['='] (by decide) u v
        (by rw [show (['='] : Str).dropLast = ([] : Str) from rfl, List.append_nil]
            exact hfirst)
    have hcont : containsSub ['='] (pyStrip line) = true := by
      simp only [containsSub, hfind, Option.isSome_some]
    have hne : pyStrip line ≠ [] := by
      rw [hline, hassoc]
      intro hc
      exact absurd (List.append_eq_nil.mp hc).2 (by simp)
    have hcond : pyStrip line ≠ [] ∧ (pyStrip line).head? ≠ some '#' ∧
        containsSub ['='] (pyStrip line) = true :=
      ⟨hne, by rw [hline]; exact hhash, hcont⟩
    rw [if_pos hcond, hfind]
    dsimp only
    rw [hline, hassoc, List.take_left u (['='] ++ v)]
    have hdrop : (u ++ (['='] ++ v)).drop (u.length + 1) = v := by
      rw [show u.length + 1 = (u ++ ['=']).length from by simp, ← hassoc,
        List.drop_left (u ++ ['=']) v]
    rw [hdrop]

/-- Claim C8 witness: the line ` A = x ` stores key `A`, value `x` into
an accumulated mapping, a comment line and a blank line change nothing,
and a multi-line blob folds the step over its lines (the later `A=2`
overwriting `A=1` and the comment line skipped). -/
theorem claim_C8_witness :
    parse_env_line [] (strOf " A = x ") = [(strOf "A", strOf "x")] ∧
    parse_env_line [(strOf "A", strOf "x")] (strOf "# note") = [(strOf "A", strOf "x")] ∧
    parse_env_line [(strOf "A", strOf "x")] (strOf "  ") = [(strOf "A", strOf "x")] ∧
    parse_env_content (strOf "A=1\nA=2\n# c\nB=3") =
      [(strOf "A", strOf "2"), (strOf "B", strOf "3")] := by
  have h1 := claim_C8 [] (strOf " A = x ") (strOf "A ") (strOf " x") (strOf "")
  have h2 := claim_C8 [(strOf "A", strOf "x")] (strOf "# note") [] [] (strOf "")
  have h3 := claim_C8 [(strOf "A", strOf "x")] (strOf "  ") [] [] (strOf "")
  refine ⟨?_, h2.2.2.1 (by decide), h3.2.1 (by decide), by decide⟩
  exact (h1.2.2.2.2 (by decide) (by decide) (by decide)).trans (by decide)

/-- Claim C6: with an empty company name or an empty stored API key,
both single-item runners report a validation error and make zero
completion-API calls; no analysis result is produced. -/
theorem claim_C6 (env : ApiEnv) (company_name api_key template : Str)
    (h : company_name = [] ∨ api_key = []) :
    (∃ em, single_run env company_name api_key template = (SingleOutcome.uiError em, 0)) ∧
    (∃ em, run_single env company_name api_key template =
      (Except.ok (PyVal.vdict [(strOf "error", PyVal.vstr em)]), 0)) := by
  by_cases hn : company_name = []
  · exact ⟨⟨strOf "Please enter a company name", by simp [single_run, hn]⟩,
      ⟨strOf "Please enter a company name", by simp [run_single, hn]⟩⟩
  · have hk : api_key = [] := h.resolve_left hn
    exact ⟨⟨strOf "Please enter your OpenAI API key", by simp [single_run, hn, hk]⟩,
      ⟨strOf "Please enter API key", by simp [run_single, hn, hk]⟩⟩

/-- Claim C6 witness, with an empty company name and a key present. -/
theorem claim_C6_witness :
    (∃ em, single_run sampleEnv [] (strOf "sk-key") (strOf "T") =
      (SingleOutcome.uiError em, 0)) ∧
    (∃ em, run_single sampleEnv [] (strOf "sk-key") (strOf "T") =
      (Except.ok (PyVal.vdict [(strOf "error", PyVal.vstr em)]), 0)) :=
  claim_C6 sampleEnv [] (strOf "sk-key") (strOf "T") (Or.inl rfl)

/-- Claim C2 (counterexample): the Gradio batch runner does not skip
unprocessable records.  The number `3` is neither a string nor an object
with a `name` field, yet its batch of one record produces one result
(via `str(company)`) instead of `1 - 1 = 0` results. -/
theorem claim_C2_counterexample :
    companyNameOf (PyVal.vnum 3) = none ∧
    (run_batch sampleEnv (strOf "p") [PyVal.vnum 3]).map List.length = Except.ok 1 ∧
    (1 : Nat) ≠ 1 - 1 := ⟨rfl, rfl, by decide⟩

/-- Claim C2 (amended): in the Streamlit batch tab, records that are
neither strings nor dicts with a `name` key are skipped silently, and
the results list has length `N - K`; the Gradio runner instead
stringifies non-dict records and never skips. -/
theorem claim_C2 (env : ApiEnv) (t : Str) (data : List PyVal) :
    (bulk_run env t data).batch_results.length +
        data.countP (fun c => (companyNameOf c).isNone) = data.length ∧
    (bulk_run env t data).batch_results.length =
        data.length - data.countP (fun c => (companyNameOf c).isNone) := by
  have hcong : data.countP (fun c => (processItem env t c).isNone) =
      data.countP (fun c => (companyNameOf c).isNone) := by
    apply List.countP_congr
    intro c _
    unfold processItem
    cases companyNameOf c <;> simp
  have hlen := length_filterMap_add (processItem env t) data
  rw [hcong] at hlen
  refine ⟨hlen, ?_⟩
  have hbr : (bulk_run env t data).batch_results.length =
      (data.filterMap (processItem env t)).length := rfl
  rw [hbr]
  omega

/-- Claim C3: in the Streamlit batch loop the results list is exactly
the per-record outcomes of the processable records in input order; a
record whose completion call raises with message `m` contributes an
entry whose analysis is the string `Error: ` followed by `m`, while a
record whose call succeeds contributes the normalized (parsed-or-raw)
value; the Gradio loop behaves the same on string records. -/
theorem claim_C3 (env : ApiEnv) (t : Str) (data : List PyVal) (nv : PyVal)
    (fp em content : Str) (names : List Str) :
    (bulk_run env t data).batch_results =
      (data.filterMap companyNameOf).map (sEntryFor env t) ∧
    (format_prompt t (renderName env nv) = some fp → env.api fp = .error em →
      (sEntryFor env t nv).analysis = PyVal.vstr (strOf "Error: " ++ em)) ∧
    (format_prompt t (renderName env nv) = some fp → env.api fp = .ok content →
      (sEntryFor env t nv).analysis = pyNormalize env content) ∧
    run_batch env t (names.map PyVal.vstr) = .ok (names.map (gEntryFor env t)) := by
  refine ⟨bulk_run_results env t data, ?_, ?_, run_batch_strings env t names⟩
  · intro h1 h2
    show analysisFor env t (renderName env nv) = _
    unfold analysisFor
    rw [h1]
    dsimp only
    rw [h2]
  · intro h1 h2
    show analysisFor env t (renderName env nv) = _
    unfold analysisFor
    rw [h1]
    dsimp only
    rw [h2]

/-- Claim C3 witness: for records `A`, `B`, `C` where only the call for
`B` fails (message `boom`), the batch result is the per-record outcome
map, entry `B` carries `Error: boom`, and entry `A` carries the normal
normalized value. -/
theorem claim_C3_witness :
    (bulk_run envErrB tmplHi
        [PyVal.vstr (strOf "A"), PyVal.vstr (strOf "B"), PyVal.vstr (strOf "C")]).batch_results =
      ([PyVal.vstr (strOf "A"), PyVal.vstr (strOf "B"),
          PyVal.vstr (strOf "C")].filterMap companyNameOf).map (sEntryFor envErrB tmplHi) ∧
    (sEntryFor envErrB tmplHi (PyVal.vstr (strOf "B"))).analysis =
      PyVal.vstr (strOf "Error: boom") ∧
    (sEntryFor envErrB tmplHi (PyVal.vstr (strOf "A"))).analysis =
      pyNormalize envErrB (strOf "other") := by
  have h := claim_C3 envErrB tmplHi
    [PyVal.vstr (strOf "A"), PyVal.vstr (strOf "B"), PyVal.vstr (strOf "C")]
    (PyVal.vstr (strOf "B")) (strOf "Hi B") (strOf "boom") (strOf "other") []
  have h2 := claim_C3 envErrB tmplHi [] (PyVal.vstr (strOf "A"))
    (strOf "Hi A") (strOf "boom") (strOf "other") []
  exact ⟨h.1, h.2.1 (by decide) rfl, h2.2.2.1 (by decide) rfl⟩

/-- Claim C1 (counterexample): the Streamlit bulk run persists a bare
array, not the `generated_at`/`total_companies`/`results` object: after
a one-record batch the downloadable content is not a dict at all. -/
theorem claim_C1_counterexample :
    isDictV (bulk_run sampleEnv tmplHi [PyVal.vstr (strOf "A")]).output_file = false ∧
    (bulk_run sampleEnv tmplHi [PyVal.vstr (strOf "A")]).batch_results.length = 1 :=
  ⟨rfl, rfl⟩

/-- Claim C1 (amended): in the Gradio batch runner the assembled output
is `\x7bgenerated_at, total_companies = len(results), results\x7d` with
results in processed order, and exactly this structure is written to the
downloadable JSON file. -/
theorem claim_C1 (env : ApiEnv) (prompt : Str) (data : List PyVal) (out : GBatchOut)
    (h : run_batch_full env prompt data = .ok out) :
    out.output_data = PyVal.vdict
      [(strOf "generated_at", PyVal.vstr env.now),
       (strOf "total_companies", PyVal.vnum out.results.length),
       (strOf "results", PyVal.vlist (out.results.map gEntryVal))] ∧
    out.saved_file = out.output_data := by
  unfold run_batch_full at h
  cases hrb : run_batch env prompt data with
  | error e =>
    rw [hrb] at h
    exact absurd h (by simp [Except.map])
  | ok rs =>
    rw [hrb] at h
    dsimp only [Except.map] at h
    have h2 := (Except.ok.injEq _ _).mp h
    rw [← h2]
    exact ⟨rfl, rfl⟩

/-- Claim C1 witness: a completed one-record Gradio batch. -/
theorem claim_C1_witness :
    ∃ out, run_batch_full sampleEnv (strOf "p") [PyVal.vstr (strOf "A")] = .ok out ∧
      out.output_data = PyVal.vdict
        [(strOf "generated_at", PyVal.vstr sampleEnv.now),
         (strOf "total_companies", PyVal.vnum out.results.length),
         (strOf "results", PyVal.vlist (out.results.map gEntryVal))] ∧
      out.saved_file = out.output_data :=
  ⟨_, rfl, claim_C1 sampleEnv (strOf "p") [PyVal.vstr (strOf "A")] _ rfl⟩

/-- Claim C10: the Streamlit downloadable content is the bare array of
reformatted entries, one per result: a dict analysis yields
`\x7bcompany, analysis\x7d` with the timestamp dropped, any other
analysis is wrapped into an error object; the stored results list is the
raw loop output, untouched by the formatting. -/
theorem claim_C10 (env : ApiEnv) (t : Str) (data : List PyVal) (r : ResultEntry)
    (m : List (Str × PyVal)) :
    (bulk_run env t data).batch_results = data.filterMap (processItem env t) ∧
    (bulk_run env t data).output_file =
      PyVal.vlist ((bulk_run env t data).batch_results.map formatResultEntry) ∧
    (r.analysis = PyVal.vdict m →
      formatResultEntry r =
        PyVal.vdict [(strOf "company", r.company), (strOf "analysis", PyVal.vdict m)]) ∧
    (isDictV r.analysis = false →
      formatResultEntry r =
        PyVal.vdict [(strOf "company", r.company),
          (strOf "analysis", PyVal.vdict
            [(strOf "company_name", r.company),
             (strOf "main_twitter_handle", PyVal.vnull),
             (strOf "error", r.analysis)])]) ∧
    pyGet (formatResultEntry r) (strOf "timestamp") = none := by
  refine ⟨rfl, rfl, ?_, ?_, ?_⟩
  · intro h
    unfold formatResultEntry
    rw [h]
  · intro h
    unfold formatResultEntry
    cases hr : r.analysis <;> first | rfl | (rw [hr] at h; exact absurd h (by simp [isDictV]))
  · unfold formatResultEntry
    cases r.analysis <;> rfl

/-- Claim C10 witness: concrete dict-analysis and string-analysis
entries. -/
theorem claim_C10_witness :
    formatResultEntry ⟨PyVal.vstr (strOf "A"), PyVal.vdict [], strOf "TS"⟩ =
      PyVal.vdict [(strOf "company", PyVal.vstr (strOf "A")),
        (strOf "analysis", PyVal.vdict [])] ∧
    formatResultEntry ⟨PyVal.vstr (strOf "A"), PyVal.vstr (strOf "E"), strOf "TS"⟩ =
      PyVal.vdict [(strOf "company", PyVal.vstr (strOf "A")),
        (strOf "analysis", PyVal.vdict
          [(strOf "company_name", PyVal.vstr (strOf "A")),
           (strOf "main_twitter_handle", PyVal.vnull),
           (strOf "error", PyVal.vstr (strOf "E"))])] :=
  ⟨(claim_C10 sampleEnv (strOf "t") []
      ⟨PyVal.vstr (strOf "A"), PyVal.vdict [], strOf "TS"⟩ []).2.2.1 rfl,
   (claim_C10 sampleEnv (strOf "t") []
      ⟨PyVal.vstr (strOf "A"), PyVal.vstr (strOf "E"), strOf "TS"⟩ []).2.2.2.1 rfl⟩

/-- Claim C9 counterexample: the original retention conjunct fails for
a stored empty-string key. Sourcing the local settings line
OPENAI_API_KEY= stores the empty string under the key, so the state is
reachable; a save with a blank API-key field then drops the key instead
of retaining it, because line 79 of settings_tab.py tests truthiness of
the stored value with .get and the empty string is falsy. -/
theorem claim_C9_counterexample :
    parse_env_content (strOf "OPENAI_API_KEY=") = [(strOf "OPENAI_API_KEY", ([] : Str))] ∧
    assocLookup [(strOf "OPENAI_API_KEY", ([] : Str))] (strOf "OPENAI_API_KEY") =
      some ([] : Str) ∧
    assocLookup (save_individual_settings ([] : Str) (strOf "gpt-4o") (strOf "1000")
        (strOf "0.7") ⟨[(strOf "OPENAI_API_KEY", ([] : Str))], [], none⟩).config_settings
      (strOf "OPENAI_API_KEY") = none := by decide

/-- Claim C9 (amended): a save replaces the configuration mapping in
full — the four widget-derived keys are exactly what the new mapping
holds, every other previously stored key is gone. A non-blank API-key
field stores the typed key; a blank field carries over the previously
stored `OPENAI_API_KEY` only when that stored value is a non-empty
string — the truthiness test of line 79 — while a stored empty string,
like an absent key, is dropped. -/
theorem claim_C9 (openai_key model_name max_tokens temperature old : Str) (s : SessionState) :
    (pyStrip openai_key = [] →
      assocLookup s.config_settings (strOf "OPENAI_API_KEY") = some old → old ≠ [] →
      assocLookup (save_individual_settings openai_key model_name max_tokens
          temperature s).config_settings (strOf "OPENAI_API_KEY") = some old) ∧
    (pyStrip openai_key = [] →
      assocLookup s.config_settings (strOf "OPENAI_API_KEY") = some ([] : Str) →
      assocLookup (save_individual_settings openai_key model_name max_tokens
          temperature s).config_settings (strOf "OPENAI_API_KEY") = none) ∧
    (pyStrip openai_key = [] →
      assocLookup s.config_settings (strOf "OPENAI_API_KEY") = none →
      assocLookup (save_individual_settings openai_key model_name max_tokens
          temperature s).config_settings (strOf "OPENAI_API_KEY") = none) ∧
    (pyStrip openai_key ≠ [] →
      assocLookup (save_individual_settings openai_key model_name max_tokens
          temperature s).config_settings (strOf "OPENAI_API_KEY") = some openai_key) ∧
    assocLookup (save_individual_settings openai_key model_name max_tokens
        temperature s).config_settings (strOf "OPENAI_MODEL") = some model_name ∧
    assocLookup (save_individual_settings openai_key model_name max_tokens
        temperature s).config_settings (strOf "MAX_TOKENS") = some max_tokens ∧
    assocLookup (save_individual_settings openai_key model_name max_tokens
        temperature s).config_settings (strOf "TEMPERATURE") = some temperature ∧
    (∀ k, k ≠ strOf "OPENAI_API_KEY" → k ≠ strOf "OPENAI_MODEL" →
      k ≠ strOf "MAX_TOKENS" → k ≠ strOf "TEMPERATURE" →
      assocLookup (save_individual_settings openai_key model_name max_tokens
        temperature s).config_settings k = none) := by
  by_cases hb : pyStrip openai_key = []
  · cases hold : assocLookup s.config_settings (strOf "OPENAI_API_KEY") with
    | none =>
      have hcfg : (save_individual_settings openai_key model_name max_tokens
          temperature s).config_settings =
          [(strOf "OPENAI_MODEL", model_name), (strOf "MAX_TOKENS", max_tokens),
           (strOf "TEMPERATURE", temperature)] := by
        unfold save_individual_settings
        rw [save_config_settings, if_neg (fun hc => hc hb), hold]
      refine ⟨fun _ hsome _ => absurd hsome (by simp),
        fun _ hsome => absurd hsome (by simp),
        fun _ _ => ?_, fun hnb => absurd hb hnb, ?_, ?_, ?_, ?_⟩
      · rw [hcfg]
        rfl
      · rw [hcfg]
        rfl
      · rw [hcfg]
        rfl
      · rw [hcfg]
        rfl
      · intro k h1 h2 h3 h4
        rw [hcfg]
        simp [assocLookup, Ne.symm h2, Ne.symm h3, Ne.symm h4]
    | some old2 =>
      by_cases ho : old2 = []
      · subst ho
        have hcfg : (save_individual_settings openai_key model_name max_tokens
            temperature s).config_settings =
            [(strOf "OPENAI_MODEL", model_name), (strOf "MAX_TOKENS", max_tokens),
             (strOf "TEMPERATURE", temperature)] := by
          unfold save_individual_settings
          rw [save_config_settings, if_neg (fun hc => hc hb), hold]
          dsimp only
          rw [if_neg (fun hc => hc rfl)]
        refine ⟨?_, fun _ _ => ?_, ?_, fun hnb => absurd hb hnb, ?_, ?_, ?_, ?_⟩
        · intro _ hsome hne
          exact absurd (Option.some.inj hsome).symm hne
        · rw [hcfg]
          rfl
        · intro _ hnone
          exact absurd hnone (by simp)
        · rw [hcfg]
          rfl
        · rw [hcfg]
          rfl
        · rw [hcfg]
          rfl
        · intro k h1 h2 h3 h4
          rw [hcfg]
          simp [assocLookup, Ne.symm h2, Ne.symm h3, Ne.symm h4]
      · have hcfg : (save_individual_settings openai_key model_name max_tokens
            temperature s).config_settings =
            [(strOf "OPENAI_MODEL", model_name), (strOf "MAX_TOKENS", max_tokens),
             (strOf "TEMPERATURE", temperature), (strOf "OPENAI_API_KEY", old2)] := by
          unfold save_individual_settings
          rw [save_config_settings, if_neg (fun hc => hc hb), hold]
          dsimp only
          rw [if_pos ho]
          rfl
        refine ⟨?_, ?_, ?_, fun hnb => absurd hb hnb, ?_, ?_, ?_, ?_⟩
        · intro _ hsome _
          have he : old2 = old := Option.some.inj hsome
          subst he
          rw [hcfg]
          rfl
        · intro _ hsome
          exact absurd (Option.some.inj hsome) ho
        · intro _ hnone
          exact absurd hnone (by simp)
        · rw [hcfg]
          rfl
        · rw [hcfg]
          rfl
        · rw [hcfg]
          rfl
        · intro k h1 h2 h3 h4
          rw [hcfg]
          simp [assocLookup, Ne.symm h1, Ne.symm h2, Ne.symm h3, Ne.symm h4]
  · have hcfg : (save_individual_settings openai_key model_name max_tokens
        temperature s).config_settings =
        [(strOf "OPENAI_MODEL", model_name), (strOf "MAX_TOKENS", max_tokens),
         (strOf "TEMPERATURE", temperature), (strOf "OPENAI_API_KEY", openai_key)] := by
      unfold save_individual_settings
      rw [save_config_settings, if_pos hb]
      rfl
    refine ⟨fun hbb => absurd hbb hb, fun hbb => absurd hbb hb, fun hbb => absurd hbb hb,
      fun _ => ?_, ?_, ?_, ?_, ?_⟩
    · rw [hcfg]
      rfl
    · rw [hcfg]
      rfl
    · rw [hcfg]
      rfl
    · rw [hcfg]
      rfl
    · intro k h1 h2 h3 h4
      rw [hcfg]
      simp [assocLookup, Ne.symm h1, Ne.symm h2, Ne.symm h3, Ne.symm h4]

/-- Claim C9 witness: a blank key field retains the stored non-empty
key and drops an unrelated stale key; the model field is replaced. -/
theorem claim_C9_witness :
    assocLookup (save_individual_settings (strOf "  ") (strOf "gpt-4o") (strOf "1000")
        (strOf "0.7") ⟨[(strOf "STALE", strOf "s"), (strOf "OPENAI_API_KEY", strOf "old-key")],
          strOf "old-key", some (strOf "old-key")⟩).config_settings (strOf "OPENAI_API_KEY") =
      some (strOf "old-key") ∧
    assocLookup (save_individual_settings (strOf "  ") (strOf "gpt-4o") (strOf "1000")
        (strOf "0.7") ⟨[(strOf "STALE", strOf "s"), (strOf "OPENAI_API_KEY", strOf "old-key")],
          strOf "old-key", some (strOf "old-key")⟩).config_settings (strOf "OPENAI_MODEL") =
      some (strOf "gpt-4o") ∧
    assocLookup (save_individual_settings (strOf "  ") (strOf "gpt-4o") (strOf "1000")
        (strOf "0.7") ⟨[(strOf "STALE", strOf "s"), (strOf "OPENAI_API_KEY", strOf "old-key")],
          strOf "old-key", some (strOf "old-key")⟩).config_settings (strOf "STALE") = none := by
  have h := claim_C9 (strOf "  ") (strOf "gpt-4o") (strOf "1000") (strOf "0.7")
    (strOf "old-key")
    ⟨[(strOf "STALE", strOf "s"), (strOf "OPENAI_API_KEY", strOf "old-key")],
      strOf "old-key", some (strOf "old-key")⟩
  exact ⟨h.1 (by decide) (by decide) (by decide), h.2.2.2.2.1,
    h.2.2.2.2.2.2.2 (strOf "STALE") (by decide) (by decide) (by decide) (by decide)⟩

theorem isPrefixOf_cons₂ (a b : Char) (l1 l2 : Str) :
    (a :: l1).isPrefixOf (b :: l2) = ((a == b) && l1.isPrefixOf l2) := rfl

theorem exists_of_isPrefixOf (p s : Str) (h : p.isPrefixOf s = true) : ∃ t, s = p ++ t := by
  obtain ⟨t, ht⟩ := List.isPrefixOf_iff_prefix.mp h
  exact ⟨t, ht.symm⟩

theorem isPrefixOf_append_self (p t : Str) : p.isPrefixOf (p ++ t) = true :=
  List.isPrefixOf_iff_prefix.mpr (List.prefix_append p t)

theorem replaceAll_single_cons (a : Char) (r : Str) (c : Char) (rest : Str) :
    replaceAll [a] r (c :: rest) =
      if c = a then r ++ replaceAll [a] r rest else c :: replaceAll [a] r rest := by
  rw [replaceAll_cons]
  by_cases h : c = a
  · have hp : ([a] : Str).isPrefixOf (c :: rest) = true := by
      simp [List.isPrefixOf, h]
    rw [if_pos ⟨hp, by simp⟩, if_pos h]
    simp
  · have hp : ([a] : Str).isPrefixOf (c :: rest) = false := by
      rw [isPrefixOf_cons₂]
      simp only [List.isPrefixOf, Bool.and_true]
      exact beq_eq_false_iff_ne.mpr (fun hh => h hh.symm)
    rw [if_neg (fun hcon => absurd hcon.1 (by rw [hp]; simp)), if_neg h]

theorem esc_two_replaces (t : Str) :
    replaceAll [rbrace] [rbrace, rbrace] (replaceAll [lbrace] [lbrace, lbrace] t) =
      escBraces t := by
  induction t with
  | nil => rfl
  | cons c rest ih =>
    rw [replaceAll_single_cons]
    by_cases hl : c = lbrace
    · subst hl
      rw [if_pos rfl]
      simp only [List.cons_append, List.nil_append]
      rw [replaceAll_single_cons, if_neg (by decide), replaceAll_single_cons,
        if_neg (by decide), ih]
      simp [escBraces]
    · by_cases hr : c = rbrace
      · subst hr
        rw [if_neg (by decide)]
        rw [replaceAll_single_cons, if_pos rfl, ih]
        simp only [escBraces, List.cons_append, List.nil_append]
        rw [if_neg (by decide : ¬ rbrace = lbrace)]
        simp
      · rw [if_neg hl, replaceAll_single_cons, if_neg hr, ih]
        simp [escBraces, hl, hr]

theorem escB_lb (r : Str) : escBraces (lbrace :: r) = lbrace :: lbrace :: escBraces r := by
  simp [escBraces]

theorem escB_rb (r : Str) : escBraces (rbrace :: r) = rbrace :: rbrace :: escBraces r := by
  simp [escBraces, show ¬ rbrace = lbrace from by decide]

theorem escB_other (c : Char) (r : Str) (h1 : c ≠ lbrace) (h2 : c ≠ rbrace) :
    escBraces (c :: r) = c :: escBraces r := by
  simp only [escBraces]
  rw [if_neg h1, if_neg h2]

theorem escBraces_append (a b : Str) : escBraces (a ++ b) = escBraces a ++ escBraces b := by
  induction a with
  | nil => rfl
  | cons c rest ih =>
    simp only [List.cons_append]
    by_cases h1 : c = lbrace
    · subst h1
      rw [escB_lb, escB_lb, ih]
      rfl
    · by_cases h2 : c = rbrace
      · subst h2
        rw [escB_rb, escB_rb, ih]
        rfl
      · rw [escB_other c _ h1 h2, escB_other c _ h1 h2, ih]
        rfl

theorem escBraces_word : ∀ w : Str, (∀ c ∈ w, c ≠ lbrace ∧ c ≠ rbrace) →
    ∀ x r : Str, (w ++ x).isPrefixOf (escBraces r) = true →
    ∃ r2, r = w ++ r2 ∧ x.isPrefixOf (escBraces r2) = true := by
  intro w
  induction w with
  | nil =>
    intro _ x r h
    exact ⟨r, rfl, h⟩
  | cons a w' ih =>
    intro hw x r h
    have ha := hw a (List.mem_cons_self a w')
    cases r with
    | nil =>
      rw [show escBraces [] = [] from rfl] at h
      rw [show ((a :: w') ++ x) = a :: (w' ++ x) from rfl] at h
      simp [List.isPrefixOf] at h
    | cons b r3 =>
      rw [show ((a :: w') ++ x) = a :: (w' ++ x) from rfl] at h
      by_cases hb1 : b = lbrace
      · subst hb1
        rw [escB_lb, isPrefixOf_cons₂, Bool.and_eq_true, beq_iff_eq] at h
        exact absurd h.1 ha.1
      · by_cases hb2 : b = rbrace
        · subst hb2
          rw [escB_rb, isPrefixOf_cons₂, Bool.and_eq_true, beq_iff_eq] at h
          exact absurd h.1 ha.2
        · rw [escB_other b r3 hb1 hb2, isPrefixOf_cons₂, Bool.and_eq_true, beq_iff_eq] at h
          obtain ⟨hab, hrest⟩ := h
          obtain ⟨r2, hr2, hx⟩ := ih (fun c hc => hw c (List.mem_cons_of_mem a hc)) x r3 hrest
          exact ⟨r2, by simp [hr2, hab], hx⟩

theorem cnKey_brace_free : ∀ c ∈ cnKey, c ≠ lbrace ∧ c ≠ rbrace := by decide

/-- The token `plc` starts a string exactly when its head is `\x7b` and `cnClose`
follows. -/
theorem plc_isPrefixOf_cons (c : Char) (r : Str) :
    plc.isPrefixOf (c :: r) = true ↔ c = lbrace ∧ cnClose.isPrefixOf r = true := by
  rw [show plc = lbrace :: cnClose from rfl, isPrefixOf_cons₂, Bool.and_eq_true, beq_iff_eq]
  exact ⟨fun ⟨h1, h2⟩ => ⟨h1.symm, h2⟩, fun ⟨h1, h2⟩ => ⟨h1.symm, h2⟩⟩

/-- The doubled placeholder starts the escaped text exactly when the
single placeholder starts the original text. -/
theorem plc2_isPrefixOf_escBraces (s : Str) :
    plc2.isPrefixOf (escBraces s) = plc.isPrefixOf s := by
  cases s with
  | nil => rfl
  | cons c r =>
    by_cases hc1 : c = lbrace
    · subst hc1
      rw [escB_lb]
      rw [show plc2 = lbrace :: (lbrace :: (cnKey ++ [rbrace, rbrace])) from rfl,
        isPrefixOf_cons₂, isPrefixOf_cons₂]
      rw [show plc = lbrace :: cnClose from rfl, isPrefixOf_cons₂]
      rw [show ((lbrace : Char) == lbrace) = true from by decide]
      simp only [Bool.true_and]
      cases hfwd : (cnKey ++ [rbrace, rbrace]).isPrefixOf (escBraces r) with
      | true =>
        obtain ⟨r2, hr2, hx⟩ := escBraces_word cnKey cnKey_brace_free [rbrace, rbrace] r hfwd
        cases r2 with
        | nil => simp [List.isPrefixOf] at hx
        | cons d r4 =>
          by_cases hd1 : d = lbrace
          · subst hd1
            rw [escB_lb, isPrefixOf_cons₂,
              show ((rbrace : Char) == lbrace) = false from by decide] at hx
            simp at hx
          · by_cases hd2 : d = rbrace
            · subst hd2
              rw [hr2]
              rw [show cnClose = cnKey ++ [rbrace] from rfl]
              rw [show cnKey ++ rbrace :: r4 = (cnKey ++ [rbrace]) ++ r4 from by
                simp [List.append_assoc]]
              rw [isPrefixOf_append_self]
            · rw [escB_other d r4 hd1 hd2, isPrefixOf_cons₂,
                Bool.and_eq_true, beq_iff_eq] at hx
              exact absurd hx.1.symm hd2
      | false =>
        cases hbwd : cnClose.isPrefixOf r with
        | true =>
          obtain ⟨t, ht⟩ := exists_of_isPrefixOf cnClose r hbwd
          rw [ht, show cnClose = cnKey ++ [rbrace] from rfl, List.append_assoc,
            escBraces_append] at hfwd
          rw [show escBraces cnKey = cnKey from by decide] at hfwd
          rw [show escBraces ([rbrace] ++ t) = rbrace :: rbrace :: escBraces t from by
            rw [show ([rbrace] ++ t) = rbrace :: t from rfl, escB_rb]] at hfwd
          rw [show cnKey ++ rbrace :: rbrace :: escBraces t =
            (cnKey ++ [rbrace, rbrace]) ++ escBraces t from by simp [List.append_assoc]] at hfwd
          rw [isPrefixOf_append_self] at hfwd
          exact absurd hfwd (by simp)
        | false => rfl
    · by_cases hc2 : c = rbrace
      · subst hc2
        rw [escB_rb]
        rw [show plc2 = lbrace :: (lbrace :: (cnKey ++ [rbrace, rbrace])) from rfl,
          show plc = lbrace :: cnClose from rfl, isPrefixOf_cons₂, isPrefixOf_cons₂,
          show ((lbrace : Char) == rbrace) = false from by decide]
        simp
        rw [isPrefixOf_cons₂, show ((lbrace : Char) == rbrace) = false from by decide]
        simp
      · rw [escB_other c r hc1 hc2]
        rw [show plc2 = lbrace :: (lbrace :: (cnKey ++ [rbrace, rbrace])) from rfl,
          isPrefixOf_cons₂]
        rw [show plc = lbrace :: cnClose from rfl, isPrefixOf_cons₂]
        rw [show ((lbrace : Char) == c) = false from
          beq_eq_false_iff_ne.mpr (fun hh => hc1 hh.symm)]
        simp

/-- The doubled placeholder never starts right after a stray opening
brace placed before escaped text. -/
theorem plc2_not_mid (r : Str) : plc2.isPrefixOf (lbrace :: escBraces r) = false := by
  rw [show plc2 = lbrace :: (lbrace :: (cnKey ++ [rbrace, rbrace])) from rfl, isPrefixOf_cons₂]
  rw [show ((lbrace : Char) == lbrace) = true from by decide]
  simp only [Bool.true_and]
  cases r with
  | nil => rfl
  | cons d r4 =>
    by_cases hd1 : d = lbrace
    · subst hd1
      rw [escB_lb, isPrefixOf_cons₂]
      rw [show ((lbrace : Char) == lbrace) = true from by decide]
      simp only [Bool.true_and]
      rw [show cnKey ++ [rbrace, rbrace] = 'c' :: (strOf "ompany_name" ++ [rbrace, rbrace])
        from by decide, isPrefixOf_cons₂]
      rw [show (('c' : Char) == lbrace) = false from by decide]
      simp
    · by_cases hd2 : d = rbrace
      · subst hd2
        rw [escB_rb, isPrefixOf_cons₂]
        rw [show ((lbrace : Char) == rbrace) = false from by decide]
        simp
      · rw [escB_other d r4 hd1 hd2, isPrefixOf_cons₂]
        rw [show ((lbrace : Char) == d) = false from
          beq_eq_false_iff_ne.mpr (fun hh => hd1 hh.symm)]
        simp

theorem plc2_not_on_rb (x : Str) : plc2.isPrefixOf (rbrace :: x) = false := by
  rw [show plc2 = lbrace :: (lbrace :: (cnKey ++ [rbrace, rbrace])) from rfl, isPrefixOf_cons₂,
    show ((lbrace : Char) == rbrace) = false from by decide]
  simp

theorem plc2_not_on_other (c : Char) (x : Str) (hc : c ≠ lbrace) :
    plc2.isPrefixOf (c :: x) = false := by
  rw [show plc2 = lbrace :: (lbrace :: (cnKey ++ [rbrace, rbrace])) from rfl, isPrefixOf_cons₂,
    show ((lbrace : Char) == c) = false from beq_eq_false_iff_ne.mpr (fun hh => hc hh.symm)]
  simp

theorem replaceAll_plc2_front (E : Str) :
    replaceAll plc2 plc (plc2 ++ E) = plc ++ replaceAll plc2 plc E := by
  show replaceAll plc2 plc (lbrace :: ((lbrace :: (cnKey ++ [rbrace, rbrace])) ++ E)) = _
  rw [replaceAll_cons, if_pos ⟨isPrefixOf_append_self plc2 E, by decide⟩]
  rw [show plc2.length - 1 = (lbrace :: (cnKey ++ [rbrace, rbrace])).length from by decide,
    List.drop_left]

/-- The composed brace step of `clean_json_syntax` — doubling every
brace and then restoring each doubled placeholder — is the one-pass
transform `escKeepPlc`. -/
theorem replace_plc2_escBraces : ∀ n s, List.length s ≤ n →
    replaceAll plc2 plc (escBraces s) = escKeepPlc s := by
  intro n
  induction n with
  | zero =>
    intro s hs
    cases s with
    | nil => rfl
    | cons c r => simp at hs
  | succ n ih =>
    intro s hs
    cases s with
    | nil => rfl
    | cons c r =>
      simp only [List.length_cons] at hs
      by_cases hplc : plc.isPrefixOf (c :: r) = true
      · obtain ⟨hc, hcn⟩ := (plc_isPrefixOf_cons c r).mp hplc
        subst hc
        obtain ⟨rem, hrem⟩ := exists_of_isPrefixOf cnClose r hcn
        subst hrem
        have harg : escBraces (lbrace :: (cnClose ++ rem)) = plc2 ++ escBraces rem := by
          rw [escB_lb, escBraces_append,
            show escBraces cnClose = cnKey ++ [rbrace, rbrace] from by decide]
          rfl
        rw [harg, replaceAll_plc2_front]
        rw [escKeepPlc_cons,
          if_pos ⟨rfl, isPrefixOf_append_self cnClose rem⟩,
          show (13 : Nat) = cnClose.length from by decide, List.drop_left]
        have hlenr : rem.length ≤ n := by
          rw [List.length_append] at hs
          have : cnClose.length = 13 := by decide
          omega
        rw [ih rem hlenr]
      · simp only [Bool.not_eq_true] at hplc
        have hkp : ¬ (c = lbrace ∧ cnClose.isPrefixOf r = true) := by
          intro hcc
          have := (plc_isPrefixOf_cons c r).mpr hcc
          rw [hplc] at this
          exact absurd this (by decide)
        by_cases hcl : c = lbrace
        · subst hcl
          rw [escB_lb]
          have h1 : plc2.isPrefixOf (lbrace :: lbrace :: escBraces r) = false := by
            rw [← escB_lb, plc2_isPrefixOf_escBraces]
            exact hplc
          rw [replaceAll_cons, if_neg (fun hcon => absurd hcon.1 (by rw [h1]; simp))]
          rw [replaceAll_cons,
            if_neg (fun hcon => absurd hcon.1 (by rw [plc2_not_mid r]; simp))]
          rw [ih r (by omega)]
          rw [escKeepPlc_cons, if_neg hkp, if_pos rfl]
        · by_cases hcr : c = rbrace
          · subst hcr
            rw [escB_rb]
            rw [replaceAll_cons,
              if_neg (fun hcon => absurd hcon.1 (by rw [plc2_not_on_rb]; simp))]
            rw [replaceAll_cons,
              if_neg (fun hcon => absurd hcon.1 (by rw [plc2_not_on_rb]; simp))]
            rw [ih r (by omega)]
            rw [escKeepPlc_cons, if_neg hkp, if_neg (by decide : ¬ rbrace = lbrace),
              if_pos rfl]
          · rw [escB_other c r hcl hcr]
            rw [replaceAll_cons,
              if_neg (fun hcon => absurd hcon.1 (by rw [plc2_not_on_other c _ hcl]; simp))]
            rw [ih r (by omega)]
            rw [escKeepPlc_cons, if_neg hkp, if_neg hcl, if_neg hcr]

/-- Fact: `clean_json_syntax` is comment stripping followed by the one-pass
placeholder-preserving brace escape. -/
theorem clean_json_syntax_eq (text : Str) :
    clean_json_syntax text = escKeepPlc (strip_comments text) := by
  simp only [ clean_json_syntax]
  rw [esc_two_replaces]
  exact replace_plc2_escBraces (strip_comments text).length _ le_rfl

theorem containsSub_cons_of (p : Str) (c : Char) (rest : Str)
    (h : containsSub p rest = true) : containsSub p (c :: rest) = true := by
  rw [containsSub_cons, h, Bool.or_true]

theorem containsSub_self_append (p t : Str) : containsSub p (p ++ t) = true :=
  containsSub_of_isPrefixOf _ _ (isPrefixOf_append_self p t)

theorem takeWhile_append_all (p : Char → Bool) (w y : Str) (hw : w.all p = true) :
    (w ++ y).takeWhile p = w ++ y.takeWhile p := by
  induction w with
  | nil => rfl
  | cons a w' ih =>
    simp only [List.all_cons, Bool.and_eq_true] at hw
    simp only [List.cons_append, List.takeWhile_cons, hw.1]
    rw [ih hw.2]
    simp

theorem eskp_at_plc (rem : Str) :
    escKeepPlc (lbrace :: (cnClose ++ rem)) = plc ++ escKeepPlc rem := by
  rw [escKeepPlc_cons, if_pos ⟨rfl, isPrefixOf_append_self cnClose rem⟩,
    show (13 : Nat) = cnClose.length from by decide, List.drop_left]

theorem eskp_lb (r : Str) (h : cnClose.isPrefixOf r = false) :
    escKeepPlc (lbrace :: r) = lbrace :: lbrace :: escKeepPlc r := by
  rw [escKeepPlc_cons, if_neg (fun hc => absurd hc.2 (by rw [h]; simp)), if_pos rfl]

theorem eskp_rb (r : Str) : escKeepPlc (rbrace :: r) = rbrace :: rbrace :: escKeepPlc r := by
  rw [escKeepPlc_cons, if_neg (fun hc => absurd hc.1 (by decide)),
    if_neg (by decide : ¬ rbrace = lbrace), if_pos rfl]

theorem eskp_other (c : Char) (r : Str) (h1 : c ≠ lbrace) (h2 : c ≠ rbrace) :
    escKeepPlc (c :: r) = c :: escKeepPlc r := by
  rw [escKeepPlc_cons, if_neg (fun hc => absurd hc.1 h1), if_neg h1, if_neg h2]

theorem pyF_lb2 (nm t : Str) :
    pyFormat nm (lbrace :: lbrace :: t) = (pyFormat nm t).map (fun o => lbrace :: o) := by
  rw [pyFormat_cons, if_pos rfl]
  dsimp only
  rw [if_pos rfl]

theorem pyF_rb2 (nm t : Str) :
    pyFormat nm (rbrace :: rbrace :: t) = (pyFormat nm t).map (fun o => rbrace :: o) := by
  rw [pyFormat_cons, if_neg (by decide : ¬ rbrace = lbrace), if_pos rfl]
  dsimp only
  rw [if_pos rfl]

theorem pyF_other (nm : Str) (c : Char) (t : Str) (h1 : c ≠ lbrace) (h2 : c ≠ rbrace) :
    pyFormat nm (c :: t) = (pyFormat nm t).map (fun o => c :: o) := by
  rw [pyFormat_cons, if_neg h1, if_neg h2]

theorem pyF_plc (nm t : Str) :
    pyFormat nm (plc ++ t) = (pyFormat nm t).map (fun o => nm ++ o) := by
  show pyFormat nm (lbrace :: ('c' :: (strOf "ompany_name" ++ rbrace :: t))) = _
  rw [pyFormat_cons, if_pos rfl]
  dsimp only
  rw [if_neg (by decide : ¬ ('c' : Char) = lbrace)]
  have htw : (('c' : Char) :: (strOf "ompany_name" ++ rbrace :: t)).takeWhile fieldChar =
      cnKey := by
    rw [show (('c' : Char) :: (strOf "ompany_name" ++ rbrace :: t)) = cnKey ++ rbrace :: t
      from rfl]
    rw [takeWhile_append_all fieldChar cnKey (rbrace :: t) (by decide)]
    rw [show (rbrace :: t).takeWhile fieldChar = [] from by
      simp [List.takeWhile_cons, fieldChar]]
    simp
  rw [htw]
  have hdrop : (('c' : Char) :: (strOf "ompany_name" ++ rbrace :: t)).drop cnKey.length =
      rbrace :: t := by
    rw [show (('c' : Char) :: (strOf "ompany_name" ++ rbrace :: t)) = cnKey ++ rbrace :: t
      from rfl]
    exact List.drop_left cnKey (rbrace :: t)
  rw [hdrop]
  rw [if_pos ⟨rfl, rfl⟩]
  rfl

theorem escKeepPlc_word : ∀ w : Str, (∀ c ∈ w, c ≠ lbrace ∧ c ≠ rbrace) →
    ∀ x r : Str, (w ++ x).isPrefixOf (escKeepPlc r) = true →
    ∃ r2, r = w ++ r2 ∧ x.isPrefixOf (escKeepPlc r2) = true := by
  intro w
  induction w with
  | nil =>
    intro _ x r h
    exact ⟨r, rfl, h⟩
  | cons a w' ih =>
    intro hw x r h
    have ha := hw a (List.mem_cons_self a w')
    cases r with
    | nil =>
      rw [show escKeepPlc [] = [] from rfl] at h
      rw [show ((a :: w') ++ x) = a :: (w' ++ x) from rfl] at h
      simp [List.isPrefixOf] at h
    | cons b r3 =>
      rw [show ((a :: w') ++ x) = a :: (w' ++ x) from rfl] at h
      by_cases hp : b = lbrace ∧ cnClose.isPrefixOf r3 = true
      · obtain ⟨hb, hbn⟩ := hp
        subst hb
        obtain ⟨rem, hrem⟩ := exists_of_isPrefixOf cnClose r3 hbn
        subst hrem
        rw [eskp_at_plc] at h
        rw [show plc ++ escKeepPlc rem = lbrace :: (cnClose ++ escKeepPlc rem) from rfl,
          isPrefixOf_cons₂,
          show ((a : Char) == lbrace) = false from
            beq_eq_false_iff_ne.mpr ha.1] at h
        simp at h
      · by_cases hb1 : b = lbrace
        · have hbn : cnClose.isPrefixOf r3 = false := by
            cases hy : cnClose.isPrefixOf r3 with
            | true => exact absurd ⟨hb1, hy⟩ hp
            | false => rfl
          subst hb1
          rw [eskp_lb r3 hbn, isPrefixOf_cons₂,
            show ((a : Char) == lbrace) = false from beq_eq_false_iff_ne.mpr ha.1] at h
          simp at h
        · by_cases hb2 : b = rbrace
          · subst hb2
            rw [eskp_rb, isPrefixOf_cons₂,
              show ((a : Char) == rbrace) = false from beq_eq_false_iff_ne.mpr ha.2] at h
            simp at h
          · rw [eskp_other b r3 hb1 hb2, isPrefixOf_cons₂, Bool.and_eq_true, beq_iff_eq] at h
            obtain ⟨hab, hrest⟩ := h
            obtain ⟨r2, hr2, hx⟩ := ih (fun c hc => hw c (List.mem_cons_of_mem a hc)) x r3 hrest
            exact ⟨r2, by simp [hr2, hab], hx⟩

theorem cnClose_in_escKeepPlc (r : Str) (h : cnClose.isPrefixOf (escKeepPlc r) = true) :
    cnClose.isPrefixOf r = true := by
  rw [show cnClose = cnKey ++ [rbrace] from rfl] at h
  obtain ⟨r2, hr2, hx⟩ := escKeepPlc_word cnKey cnKey_brace_free [rbrace] r h
  cases r2 with
  | nil =>
    rw [show escKeepPlc [] = [] from rfl] at hx
    simp [List.isPrefixOf] at hx
  | cons d r4 =>
    by_cases hp : d = lbrace ∧ cnClose.isPrefixOf r4 = true
    · obtain ⟨hd, hdn⟩ := hp
      subst hd
      obtain ⟨rem, hrem⟩ := exists_of_isPrefixOf cnClose r4 hdn
      subst hrem
      rw [eskp_at_plc] at hx
      rw [show plc ++ escKeepPlc rem = lbrace :: (cnClose ++ escKeepPlc rem) from rfl,
        isPrefixOf_cons₂, show ((rbrace : Char) == lbrace) = false from by decide] at hx
      simp at hx
    · by_cases hd1 : d = lbrace
      · have hdn : cnClose.isPrefixOf r4 = false := by
          cases hy : cnClose.isPrefixOf r4 with
          | true => exact absurd ⟨hd1, hy⟩ hp
          | false => rfl
        subst hd1
        rw [eskp_lb r4 hdn, isPrefixOf_cons₂,
          show ((rbrace : Char) == lbrace) = false from by decide] at hx
        simp at hx
      · by_cases hd2 : d = rbrace
        · subst hd2
          rw [hr2, show cnClose = cnKey ++ [rbrace] from rfl]
          rw [show cnKey ++ rbrace :: r4 = (cnKey ++ [rbrace]) ++ r4 from by
            simp [List.append_assoc]]
          exact isPrefixOf_append_self _ _
        · rw [eskp_other d r4 hd1 hd2, isPrefixOf_cons₂,
            show ((rbrace : Char) == d) = false from
              beq_eq_false_iff_ne.mpr (fun hh => hd2 hh.symm)] at hx
          simp at hx

/-- On placeholder-preserving escaped text the Python format call always
succeeds, and whenever the text contains the placeholder the output
contains the substituted name. -/
theorem pyFormat_escKeepPlc (nm : Str) : ∀ n s, List.length s ≤ n →
    ∃ out, pyFormat nm (escKeepPlc s) = some out ∧
      (containsSub plc (escKeepPlc s) = true → containsSub nm out = true) := by
  intro n
  induction n with
  | zero =>
    intro s hs
    cases s with
    | nil => exact ⟨[], rfl, fun h => absurd h (by decide)⟩
    | cons c r => simp at hs
  | succ n ih =>
    intro s hs
    cases s with
    | nil => exact ⟨[], rfl, fun h => absurd h (by decide)⟩
    | cons c r =>
      simp only [List.length_cons] at hs
      by_cases hplcb : c = lbrace ∧ cnClose.isPrefixOf r = true
      · obtain ⟨hc, hcn⟩ := hplcb
        subst hc
        obtain ⟨rem, hrem⟩ := exists_of_isPrefixOf cnClose r hcn
        subst hrem
        rw [eskp_at_plc]
        have hlenr : rem.length ≤ n := by
          rw [List.length_append] at hs
          have h13 : cnClose.length = 13 := by decide
          omega
        obtain ⟨out, hout, _⟩ := ih rem hlenr
        refine ⟨nm ++ out, ?_, fun _ => containsSub_self_append nm out⟩
        rw [pyF_plc, hout]
        rfl
      · by_cases hcl : c = lbrace
        · have hcn : cnClose.isPrefixOf r = false := by
            cases hx : cnClose.isPrefixOf r with
            | true => exact absurd ⟨hcl, hx⟩ hplcb
            | false => rfl
          subst hcl
          rw [eskp_lb r hcn]
          obtain ⟨out, hout, hcont⟩ := ih r (by omega)
          refine ⟨lbrace :: out, ?_, ?_⟩
          · rw [pyF_lb2, hout]
            rfl
          · intro hin
            rw [containsSub_cons, containsSub_cons] at hin
            have hd1 : plc.isPrefixOf (lbrace :: lbrace :: escKeepPlc r) = false := by
              rw [show plc = lbrace :: cnClose from rfl, isPrefixOf_cons₂,
                show cnClose = 'c' :: (strOf "ompany_name" ++ [rbrace]) from rfl,
                isPrefixOf_cons₂, show (('c' : Char) == lbrace) = false from by decide]
              simp
            have hd2 : plc.isPrefixOf (lbrace :: escKeepPlc r) = false := by
              rw [show plc = lbrace :: cnClose from rfl, isPrefixOf_cons₂,
                show ((lbrace : Char) == lbrace) = true from by decide, Bool.true_and]
              cases hx : cnClose.isPrefixOf (escKeepPlc r) with
              | true =>
                have hy := cnClose_in_escKeepPlc r hx
                rw [hcn] at hy
                exact absurd hy (by decide)
              | false => rfl
            rw [hd1, hd2] at hin
            simp only [Bool.false_or] at hin
            exact containsSub_cons_of nm lbrace out (hcont hin)
        · by_cases hcr : c = rbrace
          · subst hcr
            rw [eskp_rb]
            obtain ⟨out, hout, hcont⟩ := ih r (by omega)
            refine ⟨rbrace :: out, ?_, ?_⟩
            · rw [pyF_rb2, hout]
              rfl
            · intro hin
              rw [containsSub_cons, containsSub_cons] at hin
              have hd : ∀ x : Str, plc.isPrefixOf (rbrace :: x) = false := by
                intro x
                rw [show plc = lbrace :: cnClose from rfl, isPrefixOf_cons₂,
                  show ((lbrace : Char) == rbrace) = false from by decide]
                simp
              rw [hd, hd] at hin
              simp only [Bool.false_or] at hin
              exact containsSub_cons_of nm rbrace out (hcont hin)
          · rw [eskp_other c r hcl hcr]
            obtain ⟨out, hout, hcont⟩ := ih r (by omega)
            refine ⟨c :: out, ?_, ?_⟩
            · rw [pyF_other nm c _ hcl hcr, hout]
              rfl
            · intro hin
              rw [containsSub_cons] at hin
              have hd : plc.isPrefixOf (c :: escKeepPlc r) = false := by
                rw [show plc = lbrace :: cnClose from rfl, isPrefixOf_cons₂,
                  show ((lbrace : Char) == c) = false from
                    beq_eq_false_iff_ne.mpr (fun hh => hcl hh.symm)]
                simp
              rw [hd] at hin
              simp only [Bool.false_or] at hin
              exact containsSub_cons_of nm c out (hcont hin)

/-- Claim C4 (counterexample): a template can contain `\x7bcompany_name\x7d`
only inside a `//` comment; comment stripping then removes it, the
cleaned text no longer contains the token, and the formatter takes the
append fallback instead of substituting — there is no substitution site. -/
theorem claim_C4_counterexample :
    containsSub plc tmplComment = true ∧
    containsSub plc ( clean_json_syntax tmplComment) = false ∧
    format_prompt tmplComment (strOf "Acme") =
      some (strOf "\n\nCompany to analyze: Acme") := by
  refine ⟨by decide, by decide, ?_⟩
  decide

/-- Claim C4 (amended): whenever the cleaned template contains the
placeholder (the branch condition of the code), the cleaned text is the
one-pass escape in which every brace is doubled except the placeholder
occurrences, the format substitution succeeds (so no unescaped stray
brace and no foreign replacement field survives escaping), and its
output contains the substituted company name. -/
theorem claim_C4 (template nm : Str)
    (h : containsSub plc ( clean_json_syntax template) = true) :
    clean_json_syntax template = escKeepPlc (strip_comments template) ∧
    ∃ out, format_prompt template nm = some out ∧
      pyFormat nm ( clean_json_syntax template) = some out ∧
      containsSub nm out = true := by
  refine ⟨ clean_json_syntax_eq template, ?_⟩
  obtain ⟨out, hout, hcont⟩ := pyFormat_escKeepPlc nm (strip_comments template).length
    (strip_comments template) le_rfl
  rw [← clean_json_syntax_eq template] at hout hcont
  refine ⟨out, ?_, hout, hcont h⟩
  simp only [format_prompt]
  rw [h]
  simp only [if_pos]
  exact hout

/-- Claim C4 witness: on a template carrying the placeholder next to a
JSON-style braced block, formatting succeeds and the output contains the
company name. -/
theorem claim_C4_witness :
    clean_json_syntax tmplHi = escKeepPlc (strip_comments tmplHi) ∧
    ∃ out, format_prompt tmplHi (strOf "Acme") = some out ∧
      pyFormat (strOf "Acme") ( clean_json_syntax tmplHi) = some out ∧
      containsSub (strOf "Acme") out = true :=
  claim_C4 tmplHi (strOf "Acme") (by decide)
